import Mathlib

/-!
Verification of the lock-free SPSC ring buffer family of sst-cpputils
(src/include/sst/cpputils/ring_buffer.h): a shallow embedding of
RingBufferInternal, SimpleRingBuffer and StereoRingBuffer as pure state
transformers, followed by theorems settling the specified claims.

Machine integers (std::size_t) are modelled as Nat; the only place where
64-bit wraparound matters is the subtraction writePos - readPos inside
size() and popall(), modelled by the function wsub below.  The capacity N
is a template parameter, constrained at compile time to a power of two;
the theorems take N = 2 ^ k.  Buffers are modelled as total functions
Nat -> alpha read and written only at indices below N, matching the
in-bounds pointer arithmetic of the source.  Moves are modelled as copies:
a moved-from slot never reenters the readable region before being
rewritten, so no claim below observes the difference.
-/

set_option linter.unusedVariables false

namespace SstCpputils

/-- Modulus of the 64-bit size_t arithmetic used for the cursor difference. -/
def W64 : Nat := 2 ^ 64

/-- size_t subtraction a - b with 64-bit wraparound (a, b < W64). -/
def wsub (a b : Nat) : Nat := (a + W64 - b) % W64

/-- RingBufferInternal::mask: val & (N - 1). -/
def mask (N val : Nat) : Nat := val &&& (N - 1)

/-- internal::IsPowerOfTwo: x && (x & (x - 1)) == 0. -/
def IsPowerOfTwo (x : Nat) : Bool := x != 0 && (x &&& (x - 1)) == 0

/-- RingBufferInternal::prepareToRead: split a read of count elements
starting at readPos into the in-array segment and the wrapped segment. -/
def prepareToRead (N readPos count : Nat) : Nat × Nat :=
  let sz1 := min count (N - readPos)
  let sz2 := if sz1 < count then count - sz1 else 0
  (sz1, sz2)

/-- The std::copy of a list of elements into consecutive slots starting at
a given index (no masking: the source only copies in-bounds segments). -/
def writeSeg (buf : Nat → α) (start : Nat) : List α → (Nat → α)
  | [] => buf
  | x :: xs => writeSeg (fun p => if p = start then x else buf p) (start + 1) xs

/-- The input-reduction while loop of the bulk push:
while (sz > N) { sz -= N; units += N; } .  The first component tracks the
pointer offset, the second the remaining count; fuel bounds the iteration
count (fuel = initial sz suffices since N >= 1). -/
def bulkGo (N : Nat) : Nat → Nat → Nat → Nat × Nat
  | 0, off, sz => (off, sz)
  | fuel + 1, off, sz =>
    if N < sz then bulkGo N fuel (off + N) (sz - N) else (off, sz)

/-- The copy phase shared by the bulk pushes: prepareToWrite's split into
two segments, the two std::copy calls, and the final masked write cursor.
Returns the new buffer contents and the new writePos. -/
def bulkWrite (N : Nat) (buf : Nat → α) (pos : Nat) (u : List α) (sz : Nat) :
    (Nat → α) × Nat :=
  let sz1 := min sz (N - pos)
  let sz2 := if sz1 < sz then sz - sz1 else 0
  let buf1 := writeSeg buf pos (u.take sz1)
  let pos1 := mask N (pos + sz1)
  if sz2 ≠ 0 then
    (writeSeg buf1 pos1 ((u.drop sz1).take sz2), mask N (pos1 + sz2))
  else
    (buf1, pos1)

/-- State of SimpleRingBuffer of T, N: the backing array, the subscribed
flag, and the two cursors of RingBufferInternal. -/
structure Simple (α : Type) where
  buf : Nat → α
  subscribed : Bool
  writePos : Nat
  readPos : Nat

/-- A freshly constructed buffer: cursors zero, flag false, arbitrary
default-constructed storage contents b0. -/
def Simple.initial (b0 : Nat → α) : Simple α :=
  { buf := b0, subscribed := false, writePos := 0, readPos := 0 }

/-- RingBufferInternal::clear. -/
def Simple.clear (s : Simple α) : Simple α :=
  { s with readPos := 0, writePos := 0 }

/-- RingBufferInternal::empty. -/
def Simple.empty (s : Simple α) : Bool := s.readPos == s.writePos

/-- RingBufferInternal::size. -/
def Simple.size (N : Nat) (s : Simple α) : Nat :=
  mask N (wsub s.writePos s.readPos)

/-- RingBufferInternal::subscribe. -/
def Simple.subscribe (s : Simple α) : Simple α := { s with subscribed := true }

/-- RingBufferInternal::unsubscribe. -/
def Simple.unsubscribe (s : Simple α) : Simple α := { s with subscribed := false }

/-- SimpleRingBuffer::pop: returns the element under readPos and advances
it when the buffer is nonempty, the empty optional otherwise. -/
def Simple.pop (N : Nat) (s : Simple α) : Option α × Simple α :=
  if s.readPos ≠ s.writePos then
    (some (s.buf s.readPos), { s with readPos := mask N (s.readPos + 1) })
  else
    (none, s)

/-- SimpleRingBuffer::popall: reads size() elements in two segments from
readPos and advances readPos past them. -/
def Simple.popall (N : Nat) (s : Simple α) : List α × Simple α :=
  let sz := mask N (wsub s.writePos s.readPos)
  let p := prepareToRead N s.readPos sz
  let v := (List.range p.1).map (fun i => s.buf (s.readPos + i)) ++
           (List.range p.2).map (fun i => s.buf i)
  (v, { s with readPos := mask N (s.readPos + sz) })

/-- SimpleRingBuffer::push (single element): unconditional overwrite at
writePos, then publish the masked successor. -/
def Simple.push (N : Nat) (s : Simple α) (unit : α) : Simple α :=
  { s with buf := fun p => if p = s.writePos then unit else s.buf p,
           writePos := mask N (s.writePos + 1) }

/-- SimpleRingBuffer::push(const T*, size_t): the reduction loop followed
by the two-segment copy. -/
def Simple.pushBulk (N : Nat) (s : Simple α) (units : List α) : Simple α :=
  let r := bulkGo N units.length 0 units.length
  let w := bulkWrite N s.buf s.writePos (units.drop r.1) r.2
  { s with buf := w.1, writePos := w.2 }

/-- Pushing a list one element at a time through SimpleRingBuffer::push. -/
def Simple.pushList (N : Nat) (l : List α) (s : Simple α) : Simple α :=
  l.foldl (fun t x => Simple.push N t x) s

/-- Iterating pop and discarding the results. -/
def Simple.popIter (N : Nat) (s : Simple α) : Nat → Simple α
  | 0 => s
  | m + 1 => (Simple.pop N (Simple.popIter N s m)).2

/-- The public operations of SimpleRingBuffer, as trace alphabet. -/
inductive SOp (α : Type) where
  | clearOp : SOp α
  | pushOp (x : α) : SOp α
  | bulkOp (units : List α) : SOp α
  | popOp : SOp α
  | popallOp : SOp α
  | subOp : SOp α
  | unsubOp : SOp α

/-- One operation applied to a SimpleRingBuffer state. -/
def Simple.step (N : Nat) (s : Simple α) : SOp α → Simple α
  | SOp.clearOp => s.clear
  | SOp.pushOp x => s.push N x
  | SOp.bulkOp u => s.pushBulk N u
  | SOp.popOp => (s.pop N).2
  | SOp.popallOp => (s.popall N).2
  | SOp.subOp => s.subscribe
  | SOp.unsubOp => s.unsubscribe

/-- Running a trace of operations. -/
def Simple.run (N : Nat) (ops : List (SOp α)) (s : Simple α) : Simple α :=
  ops.foldl (fun t op => Simple.step N t op) s

/-- A state reachable from a fresh buffer by some trace. -/
def Simple.Reachable (N : Nat) (s : Simple α) : Prop :=
  ∃ (b0 : Nat → α) (ops : List (SOp α)), s = Simple.run N ops (Simple.initial b0)

/-- State of StereoRingBuffer of T, N: two parallel backing arrays plus
the shared RingBufferInternal cursors and flag. -/
structure Stereo (α : Type) where
  bufL : Nat → α
  bufR : Nat → α
  subscribed : Bool
  writePos : Nat
  readPos : Nat

/-- A freshly constructed stereo buffer with arbitrary default storage. -/
def Stereo.initial (b0L b0R : Nat → α) : Stereo α :=
  { bufL := b0L, bufR := b0R, subscribed := false, writePos := 0, readPos := 0 }

/-- RingBufferInternal::clear (stereo instance). -/
def Stereo.clear (s : Stereo α) : Stereo α :=
  { s with readPos := 0, writePos := 0 }

/-- RingBufferInternal::empty (stereo instance). -/
def Stereo.empty (s : Stereo α) : Bool := s.readPos == s.writePos

/-- RingBufferInternal::size (stereo instance). -/
def Stereo.size (N : Nat) (s : Stereo α) : Nat :=
  mask N (wsub s.writePos s.readPos)

/-- RingBufferInternal::subscribe (stereo instance). -/
def Stereo.subscribe (s : Stereo α) : Stereo α := { s with subscribed := true }

/-- RingBufferInternal::unsubscribe (stereo instance). -/
def Stereo.unsubscribe (s : Stereo α) : Stereo α := { s with subscribed := false }

/-- StereoRingBuffer::pop: both channels read at the same readPos, one
cursor advance. -/
def Stereo.pop (N : Nat) (s : Stereo α) : Option (α × α) × Stereo α :=
  if s.readPos ≠ s.writePos then
    (some (s.bufL s.readPos, s.bufR s.readPos),
     { s with readPos := mask N (s.readPos + 1) })
  else
    (none, s)

/-- StereoRingBuffer::popall: parallel two-segment extraction of size()
frames from both channels. -/
def Stereo.popall (N : Nat) (s : Stereo α) : (List α × List α) × Stereo α :=
  let sz := mask N (wsub s.writePos s.readPos)
  let p := prepareToRead N s.readPos sz
  let vL := (List.range p.1).map (fun i => s.bufL (s.readPos + i)) ++
            (List.range p.2).map (fun i => s.bufL i)
  let vR := (List.range p.1).map (fun i => s.bufR (s.readPos + i)) ++
            (List.range p.2).map (fun i => s.bufR i)
  ((vL, vR), { s with readPos := mask N (s.readPos + sz) })

/-- StereoRingBuffer::push(T, T): both channel arrays written at the same
index, then one masked writePos advance. -/
def Stereo.push (N : Nat) (s : Stereo α) (unitL unitR : α) : Stereo α :=
  { s with bufL := fun p => if p = s.writePos then unitL else s.bufL p,
           bufR := fun p => if p = s.writePos then unitR else s.bufR p,
           writePos := mask N (s.writePos + 1) }

/-- StereoRingBuffer::push(const T*, const T*, size_t), entered through
the vector convenience overload which truncates to the shorter input. -/
def Stereo.pushBulk (N : Nat) (s : Stereo α) (uL uR : List α) : Stereo α :=
  let sz0 := min uL.length uR.length
  let r := bulkGo N sz0 0 sz0
  let wL := bulkWrite N s.bufL s.writePos (uL.drop r.1) r.2
  let wR := bulkWrite N s.bufR s.writePos (uR.drop r.1) r.2
  { s with bufL := wL.1, bufR := wR.1, writePos := wL.2 }

/-- The public operations of StereoRingBuffer, as trace alphabet. -/
inductive StOp (α : Type) where
  | clearOp : StOp α
  | pushOp (l r : α) : StOp α
  | bulkOp (uL uR : List α) : StOp α
  | popOp : StOp α
  | popallOp : StOp α
  | subOp : StOp α
  | unsubOp : StOp α

/-- One operation applied to a StereoRingBuffer state. -/
def Stereo.step (N : Nat) (s : Stereo α) : StOp α → Stereo α
  | StOp.clearOp => s.clear
  | StOp.pushOp l r => s.push N l r
  | StOp.bulkOp uL uR => s.pushBulk N uL uR
  | StOp.popOp => (s.pop N).2
  | StOp.popallOp => (s.popall N).2
  | StOp.subOp => s.subscribe
  | StOp.unsubOp => s.unsubscribe

/-- Running a trace of stereo operations. -/
def Stereo.run (N : Nat) (ops : List (StOp α)) (s : Stereo α) : Stereo α :=
  ops.foldl (fun t op => Stereo.step N t op) s

/-- The left/right pairs written together by one operation: a single push
writes its argument pair; a bulk push writes index-aligned pairs of its
two inputs; the other operations write nothing. -/
def framesOf : StOp α → List (α × α)
  | StOp.pushOp l r => [(l, r)]
  | StOp.bulkOp uL uR => uL.zip uR
  | _ => []

/-- All pairs written together somewhere in a trace. -/
def pushedFrames : List (StOp α) → List (α × α)
  | [] => []
  | op :: rest => framesOf op ++ pushedFrames rest

/-! ### Arithmetic facts about the cursor masking -/

lemma W64_pos : 0 < W64 := by
  simp [W64]

lemma mask_eq_mod (k x : Nat) : mask (2 ^ k) x = x % 2 ^ k := by
  simp [mask, Nat.and_pow_two_sub_one_eq_mod]

lemma mask_lt (k x : Nat) : mask (2 ^ k) x < 2 ^ k := by
  rw [mask_eq_mod]
  exact Nat.mod_lt _ (Nat.pos_pow_of_pos k (by norm_num))

lemma wsub_self (a : Nat) : wsub a a = 0 := by
  have h : a + W64 - a = W64 := by omega
  simp [wsub, h]

lemma add_mod_of_dvd (a b n : Nat) (h : n ∣ b) : (a + b) % n = a % n := by
  obtain ⟨c, hc⟩ := h
  rw [hc, Nat.add_mul_mod_self_left]

/-- The masked 64-bit cursor difference equals the distance-in-the-ring,
for in-range cursors and capacity dividing the word modulus. -/
lemma size_eq (k w r : Nat) (hk : k ≤ 64) (hw : w < 2 ^ k) (hr : r < 2 ^ k) :
    mask (2 ^ k) (wsub w r) = (w + 2 ^ k - r) % 2 ^ k := by
  have hdvd : (2 : Nat) ^ k ∣ 2 ^ 64 := pow_dvd_pow 2 hk
  have hle : (2 : Nat) ^ k ≤ 2 ^ 64 := Nat.pow_le_pow_right (by norm_num) hk
  have hW : W64 = 2 ^ 64 := rfl
  rw [mask_eq_mod, wsub, hW]
  rw [Nat.mod_mod_of_dvd _ hdvd]
  have hsplit : w + 2 ^ 64 - r = (w + 2 ^ k - r) + (2 ^ 64 - 2 ^ k) := by
    omega
  rw [hsplit, add_mod_of_dvd]
  exact Nat.dvd_sub' hdvd dvd_rfl

/-- Closed form of the ring distance for in-range cursors. -/
lemma dist_closed (N w r : Nat) (h0 : 0 < N) (hw : w < N) (hr : r < N) :
    (w + N - r) % N = if r ≤ w then w - r else w + N - r := by
  by_cases h : r ≤ w
  · have hsplit : w + N - r = (w - r) + N := by omega
    rw [if_pos h, hsplit, Nat.add_mod_right, Nat.mod_eq_of_lt (by omega)]
  · rw [if_neg h, Nat.mod_eq_of_lt (by omega)]

/-! ### Sequences of single-element pushes -/

lemma pushList_readPos (N : Nat) (l : List α) (s : Simple α) :
    (Simple.pushList N l s).readPos = s.readPos := by
  induction l generalizing s with
  | nil => rfl
  | cons x xs ih => exact ih (Simple.push N s x)

lemma pushList_cons (N : Nat) (x : α) (xs : List α) (s : Simple α) :
    Simple.pushList N (x :: xs) s = Simple.pushList N xs (Simple.push N s x) := by
  rfl

lemma push_writePos (k : Nat) (s : Simple α) (x : α) :
    (Simple.push (2 ^ k) s x).writePos = (s.writePos + 1) % 2 ^ k := by
  simp [Simple.push, mask_eq_mod]

lemma pushList_writePos (k : Nat) (l : List α) (s : Simple α)
    (hw : s.writePos < 2 ^ k) :
    (Simple.pushList (2 ^ k) l s).writePos = (s.writePos + l.length) % 2 ^ k := by
  induction l generalizing s with
  | nil => simpa [Simple.pushList] using (Nat.mod_eq_of_lt hw).symm
  | cons x xs ih =>
    have h2 := ih (Simple.push (2 ^ k) s x)
      (by rw [push_writePos]; exact Nat.mod_lt _ (by positivity))
    rw [pushList_cons, h2, push_writePos, Nat.mod_add_mod, List.length_cons]
    congr 1
    omega

lemma pushList_buf_untouched (k : Nat) (l : List α) (s : Simple α)
    (h : s.writePos + l.length ≤ 2 ^ k) (p : Nat)
    (hp : p < s.writePos ∨ s.writePos + l.length ≤ p) :
    (Simple.pushList (2 ^ k) l s).buf p = s.buf p := by
  induction l generalizing s with
  | nil => rfl
  | cons x xs ih =>
    have hlc : (x :: xs).length = xs.length + 1 := List.length_cons x xs
    have hne : p ≠ s.writePos := by omega
    by_cases hxs : xs = []
    · subst hxs
      simp only [Simple.pushList, List.foldl_cons, List.foldl_nil, Simple.push]
      simp [hne]
    · have hxlen : 1 ≤ xs.length := List.length_pos.mpr hxs
      have hwp : (Simple.push (2 ^ k) s x).writePos = s.writePos + 1 := by
        rw [push_writePos]
        exact Nat.mod_eq_of_lt (by omega)
      have hstep := ih (Simple.push (2 ^ k) s x)
        (by rw [hwp]; omega)
        (by rw [hwp]; omega)
      rw [pushList_cons, hstep]
      simp [Simple.push, hne]

lemma pushList_buf_get (k : Nat) (l : List α) (s : Simple α)
    (h : s.writePos + l.length ≤ 2 ^ k) (i : Nat) (hi : i < l.length) :
    (Simple.pushList (2 ^ k) l s).buf (s.writePos + i) = l.get ⟨i, hi⟩ := by
  induction l generalizing s i with
  | nil => simp at hi
  | cons x xs ih =>
    have hlc : (x :: xs).length = xs.length + 1 := List.length_cons x xs
    cases i with
    | zero =>
      rw [pushList_cons]
      by_cases hxs : xs = []
      · subst hxs
        simp only [Simple.pushList, List.foldl_nil, Simple.push]
        simp
      · have hxlen : 1 ≤ xs.length := List.length_pos.mpr hxs
        have hwp : (Simple.push (2 ^ k) s x).writePos = s.writePos + 1 := by
          rw [push_writePos]
          exact Nat.mod_eq_of_lt (by omega)
        have huntouched := pushList_buf_untouched k xs (Simple.push (2 ^ k) s x)
          (by rw [hwp]; omega)
          (s.writePos + 0) (by rw [hwp]; omega)
        rw [huntouched]
        simp [Simple.push]
    | succ j =>
      have hj : j < xs.length := by omega
      have hxlen : 1 ≤ xs.length := by omega
      have hwp : (Simple.push (2 ^ k) s x).writePos = s.writePos + 1 := by
        rw [push_writePos]
        exact Nat.mod_eq_of_lt (by omega)
      have hstep := ih (Simple.push (2 ^ k) s x)
        (by rw [hwp]; omega) j hj
      rw [hwp] at hstep
      have harr : s.writePos + 1 + j = s.writePos + (j + 1) := by omega
      rw [harr] at hstep
      rw [pushList_cons, hstep]
      rfl

lemma pushList_buf_last (k : Nat) (l : List α) (s : Simple α)
    (hw : s.writePos < 2 ^ k) (hl : l ≠ []) :
    (Simple.pushList (2 ^ k) l s).buf ((s.writePos + l.length - 1) % 2 ^ k) =
      l.getLast hl := by
  induction l generalizing s with
  | nil => exact absurd rfl hl
  | cons x xs ih =>
    have hlc : (x :: xs).length = xs.length + 1 := List.length_cons x xs
    by_cases hxs : xs = []
    · subst hxs
      simp only [Simple.pushList, List.foldl_cons, List.foldl_nil, Simple.push,
        List.getLast_singleton]
      have hidx : s.writePos + [x].length - 1 = s.writePos := by
        simp
      rw [hidx, Nat.mod_eq_of_lt hw]
      simp
    · have hxlen : 1 ≤ xs.length := List.length_pos.mpr hxs
      have hwlt : (s.writePos + 1) % 2 ^ k < 2 ^ k := Nat.mod_lt _ (by positivity)
      have hstep := ih (Simple.push (2 ^ k) s x)
        (by rw [push_writePos]; exact hwlt) hxs
      rw [push_writePos] at hstep
      have hidx : (s.writePos + 1) % 2 ^ k + xs.length - 1 =
          (s.writePos + 1) % 2 ^ k + (xs.length - 1) := by omega
      rw [hidx, Nat.mod_add_mod] at hstep
      have hidx2 : s.writePos + 1 + (xs.length - 1) =
          s.writePos + (x :: xs).length - 1 := by omega
      rw [hidx2] at hstep
      rw [pushList_cons, hstep]
      exact (List.getLast_cons hxs).symm

lemma pop_of_eq (N : Nat) (s : Simple α) (h : s.readPos = s.writePos) :
    Simple.pop N s = (none, s) := by
  simp [Simple.pop, h]

lemma popIter_of_eq (N : Nat) (s : Simple α) (h : s.readPos = s.writePos)
    (m : Nat) : Simple.popIter N s m = s := by
  induction m with
  | zero => rfl
  | succ n ih =>
    show (Simple.pop N (Simple.popIter N s n)).2 = s
    rw [ih, pop_of_eq N s h]

/-! ### Claim theorems: overflow behaviour of the single-element push -/

/-- C1: pushing exactly N = 2 ^ k items one at a time into a fresh
SimpleRingBuffer with no intervening pops wraps writePos back onto
readPos, and the following pop returns the empty result even though N
unread items were written. -/
theorem push_capacity_wraps_to_empty (k : Nat) (l : List α) (b0 : Nat → α)
    (hl : l.length = 2 ^ k) :
    (Simple.pushList (2 ^ k) l (Simple.initial b0)).writePos =
      (Simple.pushList (2 ^ k) l (Simple.initial b0)).readPos ∧
    (Simple.pop (2 ^ k) (Simple.pushList (2 ^ k) l (Simple.initial b0))).1 =
      none := by
  have hw0 : (Simple.initial b0 : Simple α).writePos = 0 := rfl
  have hwp := pushList_writePos k l (Simple.initial b0)
    (by rw [hw0]; positivity)
  rw [hw0, hl, Nat.zero_add, Nat.mod_self] at hwp
  have hrp := pushList_readPos (2 ^ k) l (Simple.initial b0)
  have heq : (Simple.pushList (2 ^ k) l (Simple.initial b0)).writePos =
      (Simple.pushList (2 ^ k) l (Simple.initial b0)).readPos := by
    rw [hwp, hrp]; rfl
  exact ⟨heq, by rw [pop_of_eq _ _ heq.symm]⟩

/-- C1 witness at capacity 4. -/
theorem push_capacity_wraps_to_empty_witness :
    (Simple.pushList (2 ^ 2) [10, 11, 12, 13] (Simple.initial (fun _ => (0 : Nat)))).writePos =
      (Simple.pushList (2 ^ 2) [10, 11, 12, 13] (Simple.initial (fun _ => (0 : Nat)))).readPos ∧
    (Simple.pop (2 ^ 2) (Simple.pushList (2 ^ 2) [10, 11, 12, 13]
      (Simple.initial (fun _ => (0 : Nat))))).1 = none :=
  push_capacity_wraps_to_empty 2 [10, 11, 12, 13] (fun _ => 0) (by rfl)

/-- C4 as stated fails for the degenerate power of two N = 1: with
capacity one, pushing two items leaves writePos = readPos = 0, so the
first pop returns the empty optional, not the most recent item. -/
theorem overflow_pop_capacity_one_counterexample :
    (Simple.pop 1 (Simple.pushList 1 [10, 20]
      (Simple.initial (fun _ => (0 : Nat))))).1 = none ∧
    (Simple.pop 1 (Simple.pushList 1 [10, 20]
      (Simple.initial (fun _ => (0 : Nat))))).1 ≠ some 20 := by
  constructor
  · rfl
  · intro h
    simp [Simple.pushList, Simple.push, Simple.pop, Simple.initial, mask] at h

/-- C4 (amended to capacities N = 2 ^ k with k at least 1): pushing N + 1
items into a fresh SimpleRingBuffer with no intervening pops and then
popping once yields exactly the most recently pushed item, and every
later pop returns the empty result. -/
theorem overflow_pop_returns_newest (k : Nat) (hk : 1 ≤ k) (l : List α)
    (b0 : Nat → α) (hl : l.length = 2 ^ k + 1) (hne : l ≠ []) :
    (Simple.pop (2 ^ k) (Simple.pushList (2 ^ k) l (Simple.initial b0))).1 =
      some (l.getLast hne) ∧
    ∀ m, (Simple.pop (2 ^ k)
      (Simple.popIter (2 ^ k)
        (Simple.pop (2 ^ k) (Simple.pushList (2 ^ k) l (Simple.initial b0))).2
        m)).1 = none := by
  have h2 : 2 ≤ 2 ^ k := by
    calc 2 = 2 ^ 1 := by norm_num
    _ ≤ 2 ^ k := Nat.pow_le_pow_right (by norm_num) hk
  have hw0 : (Simple.initial b0 : Simple α).writePos = 0 := rfl
  set s := Simple.pushList (2 ^ k) l (Simple.initial b0) with hs
  have hwp : s.writePos = 1 := by
    rw [hs, pushList_writePos k l (Simple.initial b0) (by rw [hw0]; positivity),
      hw0, hl]
    have : 2 ^ k + 1 = 1 + 2 ^ k := by omega
    rw [Nat.zero_add, this, Nat.add_mod_right]
    exact Nat.mod_eq_of_lt (by omega)
  have hrp : s.readPos = 0 := pushList_readPos (2 ^ k) l (Simple.initial b0)
  have hbuf : s.buf 0 = l.getLast hne := by
    have := pushList_buf_last k l (Simple.initial b0)
      (by rw [hw0]; positivity) hne
    rw [hw0, hl] at this
    have hidx : 0 + (2 ^ k + 1) - 1 = 2 ^ k := by omega
    rw [hidx, Nat.mod_self] at this
    exact this
  have hne01 : s.readPos ≠ s.writePos := by rw [hrp, hwp]; omega
  have hpop : Simple.pop (2 ^ k) s =
      (some (s.buf s.readPos), { s with readPos := mask (2 ^ k) (s.readPos + 1) }) := by
    simp [Simple.pop, hne01]
  constructor
  · rw [hpop, hrp, hbuf]
  · intro m
    have hr' : ({ s with readPos := mask (2 ^ k) (s.readPos + 1) } :
        Simple α).readPos = ({ s with readPos := mask (2 ^ k) (s.readPos + 1) } :
        Simple α).writePos := by
      show mask (2 ^ k) (s.readPos + 1) = s.writePos
      rw [hrp, hwp, mask_eq_mod]
      exact Nat.mod_eq_of_lt (by omega)
    rw [hpop, popIter_of_eq _ _ hr' m, pop_of_eq _ _ hr']

/-- C4 witness: capacity 4, pushing 0,1,2,3,4 makes the first pop return
4 and the next pops return the empty result. -/
theorem overflow_pop_returns_newest_witness :
    (Simple.pop (2 ^ 2) (Simple.pushList (2 ^ 2) [0, 1, 2, 3, 4]
      (Simple.initial (fun _ => (0 : Nat))))).1 = some 4 ∧
    ∀ m, (Simple.pop (2 ^ 2)
      (Simple.popIter (2 ^ 2)
        (Simple.pop (2 ^ 2) (Simple.pushList (2 ^ 2) [0, 1, 2, 3, 4]
          (Simple.initial (fun _ => (0 : Nat))))).2 m)).1 = none := by
  have h := overflow_pop_returns_newest 2 (by norm_num) [0, 1, 2, 3, 4]
    (fun _ => 0) (by rfl) (by simp)
  simpa using h

lemma wsub_of_lt (a : Nat) (h : a < W64) : wsub a 0 = a := by
  rw [wsub, Nat.sub_zero, Nat.add_mod_right]
  exact Nat.mod_eq_of_lt h

/-- C2 as stated fails when the sequence has exactly N elements: filling
capacity 4 with 0,1,2,3 and calling popall returns the empty sequence,
not the pushed elements. -/
theorem popall_exact_fill_counterexample :
    (Simple.popall 4 (Simple.pushList 4 [0, 1, 2, 3]
      (Simple.initial (fun _ => (0 : Nat))))).1 = [] ∧
    (Simple.popall 4 (Simple.pushList 4 [0, 1, 2, 3]
      (Simple.initial (fun _ => (0 : Nat))))).1 ≠ [0, 1, 2, 3] := by
  constructor
  · decide
  · decide

/-- C2 (amended to sequences of fewer than N elements): pushing fewer
than N = 2 ^ k items one at a time into a buffer whose cursors are at
zero (fresh or freshly cleared), with no intervening pop, makes popall
return exactly those items in push order, and an immediately following
popall returns the empty sequence. -/
theorem popall_returns_pushed_in_order (k : Nat) (hk : k ≤ 64) (l : List α)
    (s : Simple α) (hl : l.length < 2 ^ k) (hr0 : s.readPos = 0)
    (hw0 : s.writePos = 0) :
    (Simple.popall (2 ^ k) (Simple.pushList (2 ^ k) l s)).1 = l ∧
    (Simple.popall (2 ^ k)
      (Simple.popall (2 ^ k) (Simple.pushList (2 ^ k) l s)).2).1 = [] := by
  have hkW : (2 : Nat) ^ k ≤ W64 := Nat.pow_le_pow_right (by norm_num) hk
  set s1 := Simple.pushList (2 ^ k) l s with hs1
  have hr1 : s1.readPos = 0 := by
    rw [hs1, pushList_readPos, hr0]
  have hw1 : s1.writePos = l.length := by
    rw [hs1, pushList_writePos k l s (by omega), hw0, Nat.zero_add]
    exact Nat.mod_eq_of_lt hl
  have hsz : mask (2 ^ k) (wsub s1.writePos s1.readPos) = l.length := by
    rw [hw1, hr1, wsub_of_lt _ (by omega), mask_eq_mod]
    exact Nat.mod_eq_of_lt hl
  have hprep : prepareToRead (2 ^ k) s1.readPos l.length = (l.length, 0) := by
    rw [hr1, prepareToRead]
    simp only [Nat.sub_zero]
    rw [min_eq_left (by omega)]
    simp
  have hbuf : ∀ i, i < l.length → s1.buf i = l.getD i (s.buf 0) := by
    intro i hi
    have := pushList_buf_get k l s (by omega) i hi
    rw [hw0, Nat.zero_add] at this
    rw [hs1, this, List.getD_eq_getElem _ _ hi]
    simp
  have hm0 : mask (2 ^ k) 0 = 0 := by rw [mask_eq_mod]; simp
  have hfst : (Simple.popall (2 ^ k) s1).1 = l := by
    simp only [Simple.popall]
    rw [hsz, hprep]
    simp only [hr1, Nat.zero_add, List.range_zero, List.map_nil, List.append_nil]
    apply List.ext_getElem
    · simp
    · intro i h1 h2
      simp only [List.getElem_map, List.getElem_range]
      have hi : i < l.length := by simpa using h2
      rw [hbuf i hi, List.getD_eq_getElem _ _ hi]
  have hsnd : (Simple.popall (2 ^ k) s1).2.readPos = l.length ∧
      (Simple.popall (2 ^ k) s1).2.writePos = l.length := by
    constructor
    · show mask (2 ^ k) (s1.readPos + mask (2 ^ k) (wsub s1.writePos s1.readPos)) =
        l.length
      rw [hsz, hr1, Nat.zero_add, mask_eq_mod]
      exact Nat.mod_eq_of_lt hl
    · show s1.writePos = l.length
      exact hw1
  refine ⟨hfst, ?_⟩
  simp only [Simple.popall]
  have ha : mask (2 ^ k) (s1.readPos + mask (2 ^ k) (wsub s1.writePos s1.readPos)) =
      l.length := hsnd.1
  rw [ha, hw1, wsub_self, hm0]
  simp [prepareToRead]

/-- C2 witness: the scenario of the spec at capacity 4 with pushes
0,1,2. -/
theorem popall_returns_pushed_in_order_witness :
    (Simple.popall (2 ^ 2) (Simple.pushList (2 ^ 2) [0, 1, 2]
      (Simple.initial (fun _ => (0 : Nat))))).1 = [0, 1, 2] ∧
    (Simple.popall (2 ^ 2)
      (Simple.popall (2 ^ 2) (Simple.pushList (2 ^ 2) [0, 1, 2]
        (Simple.initial (fun _ => (0 : Nat))))).2).1 = [] :=
  popall_returns_pushed_in_order 2 (by norm_num) [0, 1, 2]
    (Simple.initial (fun _ => 0)) (by norm_num) rfl rfl

/-! ### The bulk-push reduction loop -/

/-- Residual count left by the while (sz larger than N) subtraction loop. -/
def szf (N sz : Nat) : Nat := if N < sz then (sz - 1) % N + 1 else sz

lemma szf_le (N sz : Nat) (h0 : 0 < N) : szf N sz ≤ sz := by
  unfold szf
  split
  · have h1 : (sz - 1) % N ≤ sz - 1 := Nat.mod_le _ _
    omega
  · exact le_refl sz

lemma szf_le_cap (N sz : Nat) (h0 : 0 < N) : szf N sz ≤ N := by
  unfold szf
  split
  · have h1 : (sz - 1) % N < N := Nat.mod_lt _ h0
    omega
  · omega

lemma bulkGo_eq (N : Nat) (h0 : 0 < N) :
    ∀ fuel sz off, sz ≤ fuel + N →
      bulkGo N fuel off sz = (off + (sz - szf N sz), szf N sz) := by
  intro fuel
  induction fuel with
  | zero =>
    intro sz off h
    have hc : ¬ N < sz := by omega
    simp [bulkGo, szf, hc]
  | succ f ih =>
    intro sz off h
    show (if N < sz then bulkGo N f (off + N) (sz - N) else (off, sz)) =
      (off + (sz - szf N sz), szf N sz)
    by_cases hc : N < sz
    · rw [if_pos hc, ih (sz - N) (off + N) (by omega)]
      have hszf : szf N (sz - N) = szf N sz := by
        unfold szf
        by_cases h2 : N < sz - N
        · rw [if_pos h2, if_pos hc]
          have h3 : sz - 1 = (sz - N - 1) + N := by omega
          rw [h3, Nat.add_mod_right]
        · rw [if_neg h2, if_pos hc]
          have h4 : (sz - 1) % N = sz - 1 - N := by
            have h5 : sz - 1 - N < N := by omega
            have h6 : sz - 1 = (sz - 1 - N) + N := by omega
            calc (sz - 1) % N = ((sz - 1 - N) + N) % N := by rw [← h6]
            _ = (sz - 1 - N) % N := Nat.add_mod_right _ _
            _ = sz - 1 - N := Nat.mod_eq_of_lt h5
          omega
      rw [hszf]
      have h6 : szf N sz ≤ sz - N := by
        rw [← hszf]
        exact szf_le N (sz - N) h0
      have h7 : off + N + (sz - N - szf N sz) = off + (sz - szf N sz) := by omega
      rw [h7]
    · rw [if_neg hc]
      simp [szf, hc]

/-- C3 as stated fails when count is a whole multiple of N: bulk-pushing
8 elements into a fresh capacity-4 buffer stores the last 4 of them,
while bulk-pushing the final 8 mod 4 = 0 elements leaves the storage
untouched, so the two final states have different storage contents. -/
theorem pushBulk_multiple_of_capacity_counterexample :
    (Simple.pushBulk 4 (Simple.initial (fun _ => (0 : Nat)))
      [1, 2, 3, 4, 5, 6, 7, 8]).buf 0 = 5 ∧
    (Simple.pushBulk 4 (Simple.initial (fun _ => (0 : Nat)))
      ([1, 2, 3, 4, 5, 6, 7, 8].drop (8 - 8 % 4))).buf 0 = 0 ∧
    (Simple.pushBulk 4 (Simple.initial (fun _ => (0 : Nat)))
      [1, 2, 3, 4, 5, 6, 7, 8]).buf 0 ≠
    (Simple.pushBulk 4 (Simple.initial (fun _ => (0 : Nat)))
      ([1, 2, 3, 4, 5, 6, 7, 8].drop (8 - 8 % 4))).buf 0 := by
  refine ⟨by decide, by decide, by decide⟩

/-- C3 (amended): for count larger than N = 2 ^ k, the bulk push leaves
the buffer in a state identical to bulk-pushing only the final
((count - 1) mod N) + 1 elements; this count equals count mod N unless
N divides count, in which case the final N elements are pushed. -/
theorem pushBulk_reduces_to_final_segment (k : Nat) (u : List α)
    (s : Simple α) (h : 2 ^ k < u.length) :
    Simple.pushBulk (2 ^ k) s u =
      Simple.pushBulk (2 ^ k) s
        (u.drop (u.length - ((u.length - 1) % 2 ^ k + 1))) := by
  have h0 : 0 < 2 ^ k := by positivity
  have hszf : szf (2 ^ k) u.length = (u.length - 1) % 2 ^ k + 1 := by
    simp [szf, h]
  have hLle : (u.length - 1) % 2 ^ k + 1 ≤ u.length := by
    rw [← hszf]
    exact szf_le _ _ h0
  have hLcap : (u.length - 1) % 2 ^ k + 1 ≤ 2 ^ k := by
    rw [← hszf]
    exact szf_le_cap _ _ h0
  have hdlen : (u.drop (u.length - ((u.length - 1) % 2 ^ k + 1))).length =
      (u.length - 1) % 2 ^ k + 1 := by
    rw [List.length_drop]
    omega
  simp only [Simple.pushBulk]
  rw [bulkGo_eq _ h0 u.length u.length 0 (by omega), hszf, hdlen,
    bulkGo_eq _ h0 _ _ 0 (by omega)]
  have hnofix : szf (2 ^ k) ((u.length - 1) % 2 ^ k + 1) =
      (u.length - 1) % 2 ^ k + 1 := by
    have : ¬ 2 ^ k < (u.length - 1) % 2 ^ k + 1 := by omega
    simp [szf, this]
  rw [hnofix]
  simp

/-- C3 witness: bulk-pushing 6 elements into capacity 4 equals
bulk-pushing the final 2. -/
theorem pushBulk_reduces_to_final_segment_witness :
    Simple.pushBulk (2 ^ 2) (Simple.initial (fun _ => (0 : Nat)))
        [1, 2, 3, 4, 5, 6] =
      Simple.pushBulk (2 ^ 2) (Simple.initial (fun _ => (0 : Nat)))
        ([1, 2, 3, 4, 5, 6].drop (6 - ((6 - 1) % 2 ^ 2 + 1))) :=
  pushBulk_reduces_to_final_segment 2 [1, 2, 3, 4, 5, 6]
    (Simple.initial (fun _ => 0)) (by norm_num)

/-! ### Characterization of the two-segment copy -/

lemma writeSeg_untouched : ∀ (l : List α) (buf : Nat → α) (start p : Nat),
    (p < start ∨ start + l.length ≤ p) → writeSeg buf start l p = buf p := by
  intro l
  induction l with
  | nil => intro buf start p hp; rfl
  | cons x xs ih =>
    intro buf start p hp
    have hlc : (x :: xs).length = xs.length + 1 := List.length_cons x xs
    show writeSeg (fun q => if q = start then x else buf q) (start + 1) xs p = buf p
    rw [ih _ (start + 1) p (by omega)]
    have hne : p ≠ start := by omega
    simp [hne]

lemma writeSeg_at : ∀ (l : List α) (buf : Nat → α) (start j : Nat)
    (hj : j < l.length), writeSeg buf start l (start + j) = l.get ⟨j, hj⟩ := by
  intro l
  induction l with
  | nil => intro buf start j hj; simp at hj
  | cons x xs ih =>
    intro buf start j hj
    cases j with
    | zero =>
      show writeSeg (fun q => if q = start then x else buf q) (start + 1) xs
        (start + 0) = x
      rw [writeSeg_untouched xs _ (start + 1) (start + 0) (by omega)]
      simp
    | succ j' =>
      have hj' : j' < xs.length := by
        have := List.length_cons x xs
        omega
      show writeSeg (fun q => if q = start then x else buf q) (start + 1) xs
        (start + (j' + 1)) = (x :: xs).get ⟨j' + 1, hj⟩
      have harr : start + (j' + 1) = (start + 1) + j' := by omega
      rw [harr, ih _ (start + 1) j' hj']
      rfl

lemma bulkWrite_writePos (k : Nat) (buf : Nat → α) (pos : Nat) (u : List α)
    (sz : Nat) (hpos : pos < 2 ^ k) (hsz : sz ≤ 2 ^ k) :
    (bulkWrite (2 ^ k) buf pos u sz).2 = (pos + sz) % 2 ^ k := by
  simp only [bulkWrite]
  set sz1 := min sz (2 ^ k - pos) with hsz1
  set sz2 := if sz1 < sz then sz - sz1 else 0 with hsz2def
  by_cases hc : sz2 ≠ 0
  · rw [if_pos hc]
    show mask (2 ^ k) (mask (2 ^ k) (pos + sz1) + sz2) = (pos + sz) % 2 ^ k
    have hsz2v : sz2 = sz - sz1 := by
      rw [hsz2def]
      split
      · rfl
      · rw [hsz2def] at hc
        simp_all
    rw [mask_eq_mod, mask_eq_mod, Nat.mod_add_mod]
    congr 1
    have : sz1 ≤ sz := by rw [hsz1]; omega
    omega
  · rw [if_neg hc]
    show mask (2 ^ k) (pos + sz1) = (pos + sz) % 2 ^ k
    have hsz1v : sz1 = sz := by
      rw [hsz2def] at hc
      rw [hsz1]
      by_cases h : sz1 < sz
      · exfalso
        apply hc
        rw [if_pos h]
        rw [hsz1] at h
        omega
      · rw [hsz1] at h
        omega
    rw [mask_eq_mod, hsz1v]

lemma bulkWrite_at (k : Nat) (buf : Nat → α) (pos : Nat) (u : List α)
    (sz : Nat) (hpos : pos < 2 ^ k) (hsz : sz ≤ 2 ^ k) (hu : sz ≤ u.length)
    (j : Nat) (hj : j < sz) :
    (bulkWrite (2 ^ k) buf pos u sz).1 ((pos + j) % 2 ^ k) =
      u.get ⟨j, by omega⟩ := by
  simp only [bulkWrite]
  set sz1 := min sz (2 ^ k - pos) with hsz1
  set sz2 := if sz1 < sz then sz - sz1 else 0 with hsz2def
  have hsz1le : sz1 ≤ sz := by rw [hsz1]; omega
  have hsz1b : sz1 ≤ 2 ^ k - pos := by rw [hsz1]; omega
  have htlen : (u.take sz1).length = sz1 := by
    rw [List.length_take]
    omega
  by_cases hjseg : j < sz1
  · have hqval : (pos + j) % 2 ^ k = pos + j := by
      apply Nat.mod_eq_of_lt
      omega
    have hfirst : writeSeg buf pos (List.take sz1 u) (pos + j) =
        u.get ⟨j, by omega⟩ := by
      have hws := writeSeg_at (u.take sz1) buf pos j (by omega)
      rw [hws]
      simp [List.get_eq_getElem]
    by_cases hc : sz2 ≠ 0
    · rw [if_pos hc]
      show writeSeg (writeSeg buf pos (List.take sz1 u))
        (mask (2 ^ k) (pos + sz1)) (List.take sz2 (List.drop sz1 u))
        ((pos + j) % 2 ^ k) = _
      have hlt : sz1 < sz := by
        rw [hsz2def] at hc
        by_cases h : sz1 < sz
        · exact h
        · simp [h] at hc
      have hsz1v : sz1 = 2 ^ k - pos := by
        rw [hsz1] at hlt ⊢
        omega
      have hpos1 : mask (2 ^ k) (pos + sz1) = 0 := by
        rw [mask_eq_mod, hsz1v]
        have h2 : pos + (2 ^ k - pos) = 2 ^ k := by omega
        rw [h2, Nat.mod_self]
      have hsz2le : sz2 ≤ pos := by
        rw [hsz2def]
        split
        · rw [hsz1v]; omega
        · omega
      rw [hpos1, hqval]
      rw [writeSeg_untouched _ _ 0 (pos + j) ?side]
      · exact hfirst
      case side =>
        right
        have hlen2 : (List.take sz2 (List.drop sz1 u)).length ≤ sz2 := by
          rw [List.length_take]
          omega
        omega
    · rw [if_neg hc]
      rw [hqval]
      exact hfirst
  · have hlt : sz1 < sz := by omega
    have hsz2v : sz2 = sz - sz1 := by
      rw [hsz2def, if_pos hlt]
    have hsz2ne : sz2 ≠ 0 := by omega
    rw [if_pos hsz2ne]
    show writeSeg (writeSeg buf pos (List.take sz1 u))
      (mask (2 ^ k) (pos + sz1)) (List.take sz2 (List.drop sz1 u))
      ((pos + j) % 2 ^ k) = _
    have hsz1v : sz1 = 2 ^ k - pos := by
      rw [hsz1] at hlt ⊢
      omega
    have hpos1 : mask (2 ^ k) (pos + sz1) = 0 := by
      rw [mask_eq_mod, hsz1v]
      have h2 : pos + (2 ^ k - pos) = 2 ^ k := by omega
      rw [h2, Nat.mod_self]
    have hqval : (pos + j) % 2 ^ k = j - sz1 := by
      have h3 : pos + j = (j - sz1) + 2 ^ k := by omega
      rw [h3, Nat.add_mod_right]
      apply Nat.mod_eq_of_lt
      omega
    rw [hpos1, hqval]
    have harr : j - sz1 = 0 + (j - sz1) := by omega
    rw [harr]
    have hlen2 : (List.take sz2 (List.drop sz1 u)).length = sz2 := by
      rw [List.length_take, List.length_drop]
      omega
    have hws := writeSeg_at (List.take sz2 (List.drop sz1 u))
      (writeSeg buf pos (List.take sz1 u)) 0 (j - sz1) (by omega)
    rw [hws]
    have hget : (List.take sz2 (List.drop sz1 u)).get ⟨j - sz1, by omega⟩ =
        u.get ⟨j, by omega⟩ := by
      simp only [List.get_eq_getElem, List.getElem_take, List.getElem_drop]
      congr 1
      omega
    rw [hget]

lemma bulkWrite_untouched (k : Nat) (buf : Nat → α) (pos : Nat) (u : List α)
    (sz : Nat) (hpos : pos < 2 ^ k) (hsz : sz ≤ 2 ^ k) (hu : sz ≤ u.length)
    (q : Nat) (hq : q < 2 ^ k) (h : ∀ j, j < sz → q ≠ (pos + j) % 2 ^ k) :
    (bulkWrite (2 ^ k) buf pos u sz).1 q = buf q := by
  simp only [bulkWrite]
  set sz1 := min sz (2 ^ k - pos) with hsz1
  set sz2 := if sz1 < sz then sz - sz1 else 0 with hsz2def
  have hsz1le : sz1 ≤ sz := by rw [hsz1]; omega
  have hsz1b : sz1 ≤ 2 ^ k - pos := by rw [hsz1]; omega
  have htlen : (u.take sz1).length = sz1 := by
    rw [List.length_take]
    omega
  have hq1 : q < pos ∨ pos + sz1 ≤ q := by
    by_contra hcon
    push_neg at hcon
    obtain ⟨h1, h2⟩ := hcon
    apply h (q - pos) (by omega)
    rw [Nat.mod_eq_of_lt (by omega)]
    omega
  have hfirst : writeSeg buf pos (List.take sz1 u) q = buf q := by
    apply writeSeg_untouched
    rw [htlen]
    exact hq1
  by_cases hc : sz2 ≠ 0
  · rw [if_pos hc]
    show writeSeg (writeSeg buf pos (List.take sz1 u))
      (mask (2 ^ k) (pos + sz1)) (List.take sz2 (List.drop sz1 u)) q = buf q
    have hlt : sz1 < sz := by
      rw [hsz2def] at hc
      by_cases h2 : sz1 < sz
      · exact h2
      · simp [h2] at hc
    have hsz2v : sz2 = sz - sz1 := by
      rw [hsz2def, if_pos hlt]
    have hsz1v : sz1 = 2 ^ k - pos := by
      rw [hsz1] at hlt ⊢
      omega
    have hpos1 : mask (2 ^ k) (pos + sz1) = 0 := by
      rw [mask_eq_mod, hsz1v]
      have h2 : pos + (2 ^ k - pos) = 2 ^ k := by omega
      rw [h2, Nat.mod_self]
    have hq2 : sz2 ≤ q := by
      by_contra hcon
      push_neg at hcon
      apply h (sz1 + q) (by omega)
      have h3 : pos + (sz1 + q) = q + 2 ^ k := by omega
      rw [h3, Nat.add_mod_right, Nat.mod_eq_of_lt hq]
    rw [hpos1]
    rw [writeSeg_untouched _ _ 0 q ?side2]
    · exact hfirst
    case side2 =>
      right
      have hlen2 : (List.take sz2 (List.drop sz1 u)).length ≤ sz2 := by
        rw [List.length_take]
        omega
      omega
  · rw [if_neg hc]
    exact hfirst

/-! ### The cursor range invariant -/

/-- Both cursors lie below the capacity. -/
def Simple.posInv (N : Nat) (s : Simple α) : Prop :=
  s.writePos < N ∧ s.readPos < N

/-- Both cursors lie below the capacity (stereo variant). -/
def Stereo.posInv (N : Nat) (s : Stereo α) : Prop :=
  s.writePos < N ∧ s.readPos < N

lemma bulkWrite_writePos_lt (k : Nat) (buf : Nat → α) (pos : Nat) (u : List α)
    (sz : Nat) : (bulkWrite (2 ^ k) buf pos u sz).2 < 2 ^ k := by
  simp only [bulkWrite]
  set sz2 := if min sz (2 ^ k - pos) < sz then sz - min sz (2 ^ k - pos) else 0
    with hsz2
  by_cases hc : sz2 ≠ 0
  · rw [if_pos hc]
    exact mask_lt k _
  · rw [if_neg hc]
    exact mask_lt k _

lemma step_posInv (k : Nat) (s : Simple α) (op : SOp α)
    (h : Simple.posInv (2 ^ k) s) :
    Simple.posInv (2 ^ k) (Simple.step (2 ^ k) s op) := by
  have h0 : 0 < 2 ^ k := by positivity
  cases op with
  | clearOp => exact ⟨h0, h0⟩
  | pushOp x => exact ⟨mask_lt k _, h.2⟩
  | bulkOp u => exact ⟨bulkWrite_writePos_lt k _ _ _ _, h.2⟩
  | popOp =>
    show Simple.posInv (2 ^ k) (Simple.pop (2 ^ k) s).2
    rw [Simple.pop]
    split
    · exact ⟨h.1, mask_lt k _⟩
    · exact h
  | popallOp => exact ⟨h.1, mask_lt k _⟩
  | subOp => exact h
  | unsubOp => exact h

lemma run_posInv (k : Nat) (ops : List (SOp α)) (s : Simple α)
    (h : Simple.posInv (2 ^ k) s) :
    Simple.posInv (2 ^ k) (Simple.run (2 ^ k) ops s) := by
  induction ops generalizing s with
  | nil => exact h
  | cons op rest ih => exact ih (Simple.step (2 ^ k) s op) (step_posInv k s op h)

lemma initial_posInv (k : Nat) (b0 : Nat → α) :
    Simple.posInv (2 ^ k) (Simple.initial b0) := by
  have h0 : 0 < 2 ^ k := by positivity
  exact ⟨h0, h0⟩

lemma stereo_step_posInv (k : Nat) (s : Stereo α) (op : StOp α)
    (h : Stereo.posInv (2 ^ k) s) :
    Stereo.posInv (2 ^ k) (Stereo.step (2 ^ k) s op) := by
  have h0 : 0 < 2 ^ k := by positivity
  cases op with
  | clearOp => exact ⟨h0, h0⟩
  | pushOp x y => exact ⟨mask_lt k _, h.2⟩
  | bulkOp uL uR => exact ⟨bulkWrite_writePos_lt k _ _ _ _, h.2⟩
  | popOp =>
    show Stereo.posInv (2 ^ k) (Stereo.pop (2 ^ k) s).2
    rw [Stereo.pop]
    split
    · exact ⟨h.1, mask_lt k _⟩
    · exact h
  | popallOp => exact ⟨h.1, mask_lt k _⟩
  | subOp => exact h
  | unsubOp => exact h

lemma stereo_run_posInv (k : Nat) (ops : List (StOp α)) (s : Stereo α)
    (h : Stereo.posInv (2 ^ k) s) :
    Stereo.posInv (2 ^ k) (Stereo.run (2 ^ k) ops s) := by
  induction ops generalizing s with
  | nil => exact h
  | cons op rest ih =>
    exact ih (Stereo.step (2 ^ k) s op) (stereo_step_posInv k s op h)

/-- C6: the predicate writePos less than N and readPos less than N holds
on a fresh buffer and is preserved by every operation of both buffer
variants. -/
theorem cursor_mask_invariant (k : Nat) (α : Type) :
    (∀ b0 : Nat → α, Simple.posInv (2 ^ k) (Simple.initial b0)) ∧
    (∀ (s : Simple α) (op : SOp α), Simple.posInv (2 ^ k) s →
      Simple.posInv (2 ^ k) (Simple.step (2 ^ k) s op)) ∧
    (∀ b0L b0R : Nat → α, Stereo.posInv (2 ^ k) (Stereo.initial b0L b0R)) ∧
    (∀ (s : Stereo α) (op : StOp α), Stereo.posInv (2 ^ k) s →
      Stereo.posInv (2 ^ k) (Stereo.step (2 ^ k) s op)) := by
  have h0 : 0 < 2 ^ k := by positivity
  exact ⟨fun b0 => initial_posInv k b0,
    fun s op h => step_posInv k s op h,
    fun b0L b0R => ⟨h0, h0⟩,
    fun s op h => stereo_step_posInv k s op h⟩

/-- C6 witness: a push step at capacity 4 keeps the cursors in range. -/
theorem cursor_mask_invariant_witness :
    Simple.posInv (2 ^ 2) (Simple.step (2 ^ 2)
      (Simple.initial (fun _ => (0 : Nat))) (SOp.pushOp 5)) :=
  (cursor_mask_invariant 2 Nat).2.1 _ _
    ((cursor_mask_invariant 2 Nat).1 (fun _ => 0))

/-- C5: in every reachable state, empty is true exactly when readPos
equals writePos by value, size is the mask-reduced wraparound distance
from readPos to writePos, and size never reaches N. -/
theorem empty_iff_cursors_and_size_formula (k : Nat) (hk : k ≤ 64)
    (s : Simple α) (hs : Simple.Reachable (2 ^ k) s) :
    (Simple.empty s = true ↔ s.readPos = s.writePos) ∧
    Simple.size (2 ^ k) s = (s.writePos + 2 ^ k - s.readPos) % 2 ^ k ∧
    Simple.size (2 ^ k) s < 2 ^ k := by
  obtain ⟨b0, ops, rfl⟩ := hs
  have hinv := run_posInv k ops (Simple.initial b0) (initial_posInv k b0)
  refine ⟨?_, ?_, mask_lt k _⟩
  · simp [Simple.empty]
  · exact size_eq k _ _ hk hinv.1 hinv.2

/-- C5 witness: the state after one push at capacity 4. -/
theorem empty_iff_cursors_and_size_formula_witness :
    (Simple.empty (Simple.run (2 ^ 2) [SOp.pushOp 5]
      (Simple.initial (fun _ => (0 : Nat)))) = true ↔
      (Simple.run (2 ^ 2) [SOp.pushOp 5]
        (Simple.initial (fun _ => (0 : Nat)))).readPos =
      (Simple.run (2 ^ 2) [SOp.pushOp 5]
        (Simple.initial (fun _ => (0 : Nat)))).writePos) ∧
    Simple.size (2 ^ 2) (Simple.run (2 ^ 2) [SOp.pushOp 5]
      (Simple.initial (fun _ => (0 : Nat)))) =
      ((Simple.run (2 ^ 2) [SOp.pushOp 5]
        (Simple.initial (fun _ => (0 : Nat)))).writePos + 2 ^ 2 -
       (Simple.run (2 ^ 2) [SOp.pushOp 5]
        (Simple.initial (fun _ => (0 : Nat)))).readPos) % 2 ^ 2 ∧
    Simple.size (2 ^ 2) (Simple.run (2 ^ 2) [SOp.pushOp 5]
      (Simple.initial (fun _ => (0 : Nat)))) < 2 ^ 2 :=
  empty_iff_cursors_and_size_formula 2 (by norm_num) _
    ⟨fun _ => 0, [SOp.pushOp 5], rfl⟩

/-! ### Frame coherence of the stereo buffer -/

lemma cursor_advance_full (N r w : Nat) (h0 : 0 < N) (hr : r < N) (hw : w < N) :
    (r + (w + N - r) % N) % N = w := by
  rw [dist_closed N w r h0 hw hr]
  by_cases h : r ≤ w
  · rw [if_pos h]
    have h1 : r + (w - r) = w := by omega
    rw [h1, Nat.mod_eq_of_lt hw]
  · rw [if_neg h]
    have h1 : r + (w + N - r) = w + N := by omega
    rw [h1, Nat.add_mod_right, Nat.mod_eq_of_lt hw]

lemma size_norm (N a r : Nat) (hr : r ≤ N) :
    (a % N + N - r) % N = (a + N - r) % N := by
  have h1 : a % N + N - r = a % N + (N - r) := by omega
  have h2 : a + N - r = a + (N - r) := by omega
  rw [h1, h2, Nat.mod_add_mod]

/-- Decomposition of the readable region after the write cursor advanced
by sz: every index is either inside the old region or addresses one of
the sz freshly written slots. -/
lemma region_split (N r w i sz : Nat) (h0 : 0 < N) (hr : r < N) (hw : w < N)
    (hszN : sz ≤ N) (hi : i < ((w + sz) % N + N - r) % N) :
    i < (w + N - r) % N ∨
      ((w + N - r) % N ≤ i ∧ i - (w + N - r) % N < sz ∧
        (r + i) % N = (w + (i - (w + N - r) % N)) % N) := by
  by_cases hcase : i < (w + N - r) % N
  · left
    exact hcase
  · right
    have hub : ((w + sz) % N + N - r) % N ≤ (w + N - r) % N + sz := by
      rw [size_norm N (w + sz) r (by omega)]
      have h3 : w + sz + N - r = (w + N - r) + sz := by omega
      rw [h3, ← Nat.mod_add_mod]
      exact Nat.mod_le _ _
    refine ⟨by omega, by omega, ?_⟩
    have hradv : (r + (w + N - r) % N) % N = w := cursor_advance_full N r w h0 hr hw
    have h4 : r + i = (r + (w + N - r) % N) + (i - (w + N - r) % N) := by omega
    rw [h4, ← Nat.mod_add_mod, hradv]

/-- Every frame in the readable region is one of the pairs in P, written
together by a single logical push event. -/
def Stereo.goodFrames (N : Nat) (P : List (α × α)) (s : Stereo α) : Prop :=
  ∀ i, i < Stereo.size N s →
    (s.bufL (mask N (s.readPos + i)), s.bufR (mask N (s.readPos + i))) ∈ P

lemma goodFrames_mono (N : Nat) (P P' : List (α × α)) (s : Stereo α)
    (hsub : ∀ x, x ∈ P → x ∈ P') (h : Stereo.goodFrames N P s) :
    Stereo.goodFrames N P' s :=
  fun i hi => hsub _ (h i hi)

lemma stereo_size_eq (k : Nat) (hk : k ≤ 64) (s : Stereo α)
    (hw : s.writePos < 2 ^ k) (hr : s.readPos < 2 ^ k) :
    Stereo.size (2 ^ k) s = (s.writePos + 2 ^ k - s.readPos) % 2 ^ k := by
  rw [Stereo.size]
  exact size_eq k _ _ hk hw hr

lemma goodFrames_push (k : Nat) (hk : k ≤ 64) (s : Stereo α)
    (P : List (α × α)) (a b : α) (hinv : Stereo.posInv (2 ^ k) s)
    (hg : Stereo.goodFrames (2 ^ k) P s) :
    Stereo.goodFrames (2 ^ k) (P ++ [(a, b)]) (Stereo.push (2 ^ k) s a b) := by
  have h0 : 0 < 2 ^ k := by positivity
  have hw := hinv.1
  have hr := hinv.2
  intro i hi
  have hwp' : (Stereo.push (2 ^ k) s a b).writePos = (s.writePos + 1) % 2 ^ k := by
    simp [Stereo.push, mask_eq_mod]
  have hrp' : (Stereo.push (2 ^ k) s a b).readPos = s.readPos := rfl
  rw [stereo_size_eq k hk _ (by rw [hwp']; exact Nat.mod_lt _ h0)
    (by rw [hrp']; exact hr), hwp', hrp'] at hi
  by_cases hq : mask (2 ^ k) (s.readPos + i) = s.writePos
  · apply List.mem_append.mpr
    right
    have hL : (Stereo.push (2 ^ k) s a b).bufL
        (mask (2 ^ k) ((Stereo.push (2 ^ k) s a b).readPos + i)) = a := by
      rw [hrp']
      show (if mask (2 ^ k) (s.readPos + i) = s.writePos then a
        else s.bufL (mask (2 ^ k) (s.readPos + i))) = a
      rw [if_pos hq]
    have hR : (Stereo.push (2 ^ k) s a b).bufR
        (mask (2 ^ k) ((Stereo.push (2 ^ k) s a b).readPos + i)) = b := by
      rw [hrp']
      show (if mask (2 ^ k) (s.readPos + i) = s.writePos then b
        else s.bufR (mask (2 ^ k) (s.readPos + i))) = b
      rw [if_pos hq]
    rw [hL, hR]
    exact List.mem_singleton.mpr rfl
  · have hsplit := region_split (2 ^ k) s.readPos s.writePos i 1 h0 hr hw
      (by omega) hi
    rcases hsplit with hlt | ⟨hge, hjlt, heq⟩
    · apply List.mem_append.mpr
      left
      have hiold : i < Stereo.size (2 ^ k) s := by
        rw [stereo_size_eq k hk s hw hr]
        exact hlt
      have hqm : mask (2 ^ k) (s.readPos + i) ≠ s.writePos := hq
      have hL : (Stereo.push (2 ^ k) s a b).bufL
          (mask (2 ^ k) ((Stereo.push (2 ^ k) s a b).readPos + i)) =
          s.bufL (mask (2 ^ k) (s.readPos + i)) := by
        rw [hrp']
        show (if mask (2 ^ k) (s.readPos + i) = s.writePos then a
          else s.bufL (mask (2 ^ k) (s.readPos + i))) = _
        rw [if_neg hqm]
      have hR : (Stereo.push (2 ^ k) s a b).bufR
          (mask (2 ^ k) ((Stereo.push (2 ^ k) s a b).readPos + i)) =
          s.bufR (mask (2 ^ k) (s.readPos + i)) := by
        rw [hrp']
        show (if mask (2 ^ k) (s.readPos + i) = s.writePos then b
          else s.bufR (mask (2 ^ k) (s.readPos + i))) = _
        rw [if_neg hqm]
      rw [hL, hR]
      exact hg i hiold
    · exfalso
      apply hq
      have hj0 : i - (s.writePos + 2 ^ k - s.readPos) % 2 ^ k = 0 := by omega
      rw [hj0] at heq
      rw [mask_eq_mod, heq, Nat.add_zero]
      exact Nat.mod_eq_of_lt hw

lemma goodFrames_pop (k : Nat) (hk : k ≤ 64) (s : Stereo α)
    (P : List (α × α)) (hinv : Stereo.posInv (2 ^ k) s)
    (hg : Stereo.goodFrames (2 ^ k) P s) :
    Stereo.goodFrames (2 ^ k) P (Stereo.pop (2 ^ k) s).2 := by
  have h0 : 0 < 2 ^ k := by positivity
  have hw := hinv.1
  have hr := hinv.2
  by_cases hne : s.readPos ≠ s.writePos
  · have hpop : (Stereo.pop (2 ^ k) s).2 =
        { s with readPos := mask (2 ^ k) (s.readPos + 1) } := by
      simp [Stereo.pop, hne]
    rw [hpop]
    intro i hi
    have hrlt : mask (2 ^ k) (s.readPos + 1) < 2 ^ k := mask_lt k _
    have hszi : i < (s.writePos + 2 ^ k - mask (2 ^ k) (s.readPos + 1)) % 2 ^ k := by
      have := stereo_size_eq k hk
        ({ s with readPos := mask (2 ^ k) (s.readPos + 1) }) hw hrlt
      rw [this] at hi
      exact hi
    have hr'cases : (mask (2 ^ k) (s.readPos + 1) = s.readPos + 1 ∧
        s.readPos + 1 < 2 ^ k) ∨
        (mask (2 ^ k) (s.readPos + 1) = 0 ∧ s.readPos + 1 = 2 ^ k) := by
      rw [mask_eq_mod]
      by_cases h : s.readPos + 1 < 2 ^ k
      · left
        exact ⟨Nat.mod_eq_of_lt h, h⟩
      · right
        have hv : s.readPos + 1 = 2 ^ k := by omega
        rw [hv, Nat.mod_self]
        exact ⟨rfl, rfl⟩
    have hd1 := dist_closed (2 ^ k) s.writePos s.readPos h0 hw hr
    have hd2 := dist_closed (2 ^ k) s.writePos (mask (2 ^ k) (s.readPos + 1))
      h0 hw hrlt
    have hi1 : i + 1 < (s.writePos + 2 ^ k - s.readPos) % 2 ^ k := by
      rw [hd1]
      rw [hd2] at hszi
      rcases hr'cases with ⟨he, hb⟩ | ⟨he, hb⟩ <;> rw [he] at hszi <;>
        split_ifs at hszi ⊢ <;> omega
    have hfr := hg (i + 1) (by rw [stereo_size_eq k hk s hw hr]; exact hi1)
    have hidx : mask (2 ^ k) (mask (2 ^ k) (s.readPos + 1) + i) =
        mask (2 ^ k) (s.readPos + (i + 1)) := by
      rw [mask_eq_mod, mask_eq_mod, mask_eq_mod, Nat.mod_add_mod]
      congr 1
      omega
    show ((s.bufL (mask (2 ^ k) (mask (2 ^ k) (s.readPos + 1) + i))),
      (s.bufR (mask (2 ^ k) (mask (2 ^ k) (s.readPos + 1) + i)))) ∈ P
    rw [hidx]
    exact hfr
  · have hpop : (Stereo.pop (2 ^ k) s).2 = s := by
      simp [Stereo.pop, hne]
    rw [hpop]
    exact hg

lemma goodFrames_popall (k : Nat) (hk : k ≤ 64) (s : Stereo α)
    (P : List (α × α)) (hinv : Stereo.posInv (2 ^ k) s)
    (hg : Stereo.goodFrames (2 ^ k) P s) :
    Stereo.goodFrames (2 ^ k) P (Stereo.popall (2 ^ k) s).2 := by
  have h0 : 0 < 2 ^ k := by positivity
  have hw := hinv.1
  have hr := hinv.2
  intro i hi
  exfalso
  have hrp' : (Stereo.popall (2 ^ k) s).2.readPos =
      mask (2 ^ k) (s.readPos + Stereo.size (2 ^ k) s) := rfl
  have hwp' : (Stereo.popall (2 ^ k) s).2.writePos = s.writePos := rfl
  have hradv : mask (2 ^ k) (s.readPos + Stereo.size (2 ^ k) s) = s.writePos := by
    rw [mask_eq_mod, stereo_size_eq k hk s hw hr]
    exact cursor_advance_full (2 ^ k) s.readPos s.writePos h0 hr hw
  have hsz0 : Stereo.size (2 ^ k) (Stereo.popall (2 ^ k) s).2 = 0 := by
    rw [stereo_size_eq k hk _ (by rw [hwp']; exact hw)
      (by rw [hrp', hradv]; exact hw), hwp', hrp', hradv]
    have h1 : s.writePos + 2 ^ k - s.writePos = 2 ^ k := by omega
    rw [h1, Nat.mod_self]
  rw [hsz0] at hi
  omega

lemma goodFrames_clear (k : Nat) (s : Stereo α) (P : List (α × α)) :
    Stereo.goodFrames (2 ^ k) P (Stereo.clear s) := by
  intro i hi
  exfalso
  have hsz : Stereo.size (2 ^ k) (Stereo.clear s) = 0 := by
    show mask (2 ^ k) (wsub 0 0) = 0
    rw [wsub_self, mask_eq_mod, Nat.zero_mod]
  rw [hsz] at hi
  omega

lemma mem_zip_of_lt : ∀ (l1 l2 : List α) (i : Nat) (h1 : i < l1.length)
    (h2 : i < l2.length), (l1.get ⟨i, h1⟩, l2.get ⟨i, h2⟩) ∈ l1.zip l2 := by
  intro l1
  induction l1 with
  | nil => intro l2 i h1 h2; simp at h1
  | cons x xs ih =>
    intro l2 i h1 h2
    cases l2 with
    | nil => simp at h2
    | cons y ys =>
      cases i with
      | zero => simp [List.zip_cons_cons]
      | succ n =>
        have hx1 : n < xs.length := by
          have := List.length_cons x xs
          omega
        have hx2 : n < ys.length := by
          have := List.length_cons y ys
          omega
        have hmem := ih ys n hx1 hx2
        show ((x :: xs).get ⟨n + 1, h1⟩, (y :: ys).get ⟨n + 1, h2⟩) ∈
          (x, y) :: xs.zip ys
        have hg1 : (x :: xs).get ⟨n + 1, h1⟩ = xs.get ⟨n, hx1⟩ := rfl
        have hg2 : (y :: ys).get ⟨n + 1, h2⟩ = ys.get ⟨n, hx2⟩ := rfl
        rw [hg1, hg2]
        exact List.mem_cons_of_mem _ hmem

lemma get_drop_eq (l : List α) (d i : Nat) (h : i < (l.drop d).length) :
    (l.drop d).get ⟨i, h⟩ =
      l.get ⟨d + i, by rw [List.length_drop] at h; omega⟩ := by
  simp [List.get_eq_getElem, List.getElem_drop]

lemma goodFrames_pushBulk (k : Nat) (hk : k ≤ 64) (s : Stereo α)
    (P : List (α × α)) (uL uR : List α) (hinv : Stereo.posInv (2 ^ k) s)
    (hg : Stereo.goodFrames (2 ^ k) P s) :
    Stereo.goodFrames (2 ^ k) (P ++ uL.zip uR)
      (Stereo.pushBulk (2 ^ k) s uL uR) := by
  have h0 : 0 < 2 ^ k := by positivity
  have hw := hinv.1
  have hr := hinv.2
  set sz0 := min uL.length uR.length with hsz0
  have hgo : bulkGo (2 ^ k) sz0 0 sz0 =
      (0 + (sz0 - szf (2 ^ k) sz0), szf (2 ^ k) sz0) :=
    bulkGo_eq (2 ^ k) h0 sz0 sz0 0 (by omega)
  have hFle : szf (2 ^ k) sz0 ≤ sz0 := szf_le _ _ h0
  have hFcap : szf (2 ^ k) sz0 ≤ 2 ^ k := szf_le_cap _ _ h0
  have hbL : (Stereo.pushBulk (2 ^ k) s uL uR).bufL =
      (bulkWrite (2 ^ k) s.bufL s.writePos
        (uL.drop (0 + (sz0 - szf (2 ^ k) sz0))) (szf (2 ^ k) sz0)).1 := by
    show (bulkWrite (2 ^ k) s.bufL s.writePos
      (uL.drop (bulkGo (2 ^ k) sz0 0 sz0).1) (bulkGo (2 ^ k) sz0 0 sz0).2).1 = _
    rw [hgo]
  have hbR : (Stereo.pushBulk (2 ^ k) s uL uR).bufR =
      (bulkWrite (2 ^ k) s.bufR s.writePos
        (uR.drop (0 + (sz0 - szf (2 ^ k) sz0))) (szf (2 ^ k) sz0)).1 := by
    show (bulkWrite (2 ^ k) s.bufR s.writePos
      (uR.drop (bulkGo (2 ^ k) sz0 0 sz0).1) (bulkGo (2 ^ k) sz0 0 sz0).2).1 = _
    rw [hgo]
  have hwp' : (Stereo.pushBulk (2 ^ k) s uL uR).writePos =
      (s.writePos + szf (2 ^ k) sz0) % 2 ^ k := by
    show (bulkWrite (2 ^ k) s.bufL s.writePos
      (uL.drop (bulkGo (2 ^ k) sz0 0 sz0).1) (bulkGo (2 ^ k) sz0 0 sz0).2).2 = _
    rw [hgo]
    exact bulkWrite_writePos k _ _ _ _ hw hFcap
  have hrp' : (Stereo.pushBulk (2 ^ k) s uL uR).readPos = s.readPos := rfl
  have hulen : szf (2 ^ k) sz0 ≤
      (uL.drop (0 + (sz0 - szf (2 ^ k) sz0))).length := by
    rw [List.length_drop]
    omega
  have hurlen : szf (2 ^ k) sz0 ≤
      (uR.drop (0 + (sz0 - szf (2 ^ k) sz0))).length := by
    rw [List.length_drop]
    omega
  intro i hi
  rw [stereo_size_eq k hk _ (by rw [hwp']; exact Nat.mod_lt _ h0)
    (by rw [hrp']; exact hr), hwp', hrp'] at hi
  by_cases hex : ∃ j, j < szf (2 ^ k) sz0 ∧
      mask (2 ^ k) (s.readPos + i) = (s.writePos + j) % 2 ^ k
  · obtain ⟨j, hj, hqj⟩ := hex
    apply List.mem_append.mpr
    right
    rw [hrp', hbL, hbR, hqj]
    have hLval := bulkWrite_at k s.bufL s.writePos
      (uL.drop (0 + (sz0 - szf (2 ^ k) sz0))) (szf (2 ^ k) sz0)
      hw hFcap hulen j hj
    have hRval := bulkWrite_at k s.bufR s.writePos
      (uR.drop (0 + (sz0 - szf (2 ^ k) sz0))) (szf (2 ^ k) sz0)
      hw hFcap hurlen j hj
    rw [hLval, hRval, get_drop_eq, get_drop_eq]
    exact mem_zip_of_lt uL uR _ _ _
  · push_neg at hex
    have hsplit := region_split (2 ^ k) s.readPos s.writePos i
      (szf (2 ^ k) sz0) h0 hr hw hFcap hi
    rcases hsplit with hlt | ⟨hge, hjlt, heq⟩
    · apply List.mem_append.mpr
      left
      have hq : ∀ j, j < szf (2 ^ k) sz0 →
          mask (2 ^ k) (s.readPos + i) ≠ (s.writePos + j) % 2 ^ k :=
        fun j hj => hex j hj
      have hqlt : mask (2 ^ k) (s.readPos + i) < 2 ^ k := mask_lt k _
      have hL := bulkWrite_untouched k s.bufL s.writePos
        (uL.drop (0 + (sz0 - szf (2 ^ k) sz0))) (szf (2 ^ k) sz0)
        hw hFcap hulen (mask (2 ^ k) (s.readPos + i)) hqlt hq
      have hR := bulkWrite_untouched k s.bufR s.writePos
        (uR.drop (0 + (sz0 - szf (2 ^ k) sz0))) (szf (2 ^ k) sz0)
        hw hFcap hurlen (mask (2 ^ k) (s.readPos + i)) hqlt hq
      rw [hrp', hbL, hbR, hL, hR]
      exact hg i (by rw [stereo_size_eq k hk s hw hr]; exact hlt)
    · exfalso
      apply hex (i - (s.writePos + 2 ^ k - s.readPos) % 2 ^ k) hjlt
      rw [mask_eq_mod]
      exact heq

lemma goodFrames_step (k : Nat) (hk : k ≤ 64) (s : Stereo α) (op : StOp α)
    (P : List (α × α)) (hinv : Stereo.posInv (2 ^ k) s)
    (hg : Stereo.goodFrames (2 ^ k) P s) :
    Stereo.goodFrames (2 ^ k) (P ++ framesOf op)
      (Stereo.step (2 ^ k) s op) := by
  cases op with
  | clearOp =>
    exact goodFrames_mono (2 ^ k) P _ _
      (fun x hx => List.mem_append.mpr (Or.inl hx)) (goodFrames_clear k s P)
  | pushOp a b => exact goodFrames_push k hk s P a b hinv hg
  | bulkOp uL uR => exact goodFrames_pushBulk k hk s P uL uR hinv hg
  | popOp =>
    exact goodFrames_mono (2 ^ k) P _ _
      (fun x hx => List.mem_append.mpr (Or.inl hx))
      (goodFrames_pop k hk s P hinv hg)
  | popallOp =>
    exact goodFrames_mono (2 ^ k) P _ _
      (fun x hx => List.mem_append.mpr (Or.inl hx))
      (goodFrames_popall k hk s P hinv hg)
  | subOp =>
    exact fun i hi => List.mem_append.mpr (Or.inl (hg i hi))
  | unsubOp =>
    exact fun i hi => List.mem_append.mpr (Or.inl (hg i hi))

lemma goodFrames_run (k : Nat) (hk : k ≤ 64) (ops : List (StOp α))
    (s : Stereo α) (P : List (α × α)) (hinv : Stereo.posInv (2 ^ k) s)
    (hg : Stereo.goodFrames (2 ^ k) P s) :
    Stereo.goodFrames (2 ^ k) (P ++ pushedFrames ops)
      (Stereo.run (2 ^ k) ops s) := by
  induction ops generalizing s P with
  | nil =>
    show Stereo.goodFrames (2 ^ k) (P ++ []) s
    rw [List.append_nil]
    exact hg
  | cons op rest ih =>
    show Stereo.goodFrames (2 ^ k) (P ++ (framesOf op ++ pushedFrames rest))
      (Stereo.run (2 ^ k) rest (Stereo.step (2 ^ k) s op))
    have h1 := goodFrames_step k hk s op P hinv hg
    have h2 := ih (Stereo.step (2 ^ k) s op) (P ++ framesOf op)
      (stereo_step_posInv k s op hinv) h1
    exact goodFrames_mono (2 ^ k) _ _ _
      (fun x hx => by simpa [List.append_assoc] using hx) h2

/-- C7: along any single-thread trace of StereoRingBuffer operations
from a fresh buffer, every pair returned by pop consists of two values
written together by the same push event (a single push call, or the same
frame index of one bulk push), never components of two different
pushes. -/
theorem stereo_pop_frame_coherent (k : Nat) (hk : k ≤ 64)
    (ops : List (StOp α)) (b0L b0R : Nat → α) (a b : α)
    (h : (Stereo.pop (2 ^ k) (Stereo.run (2 ^ k) ops
      (Stereo.initial b0L b0R))).1 = some (a, b)) :
    (a, b) ∈ pushedFrames ops := by
  have h0 : 0 < 2 ^ k := by positivity
  set s := Stereo.run (2 ^ k) ops (Stereo.initial b0L b0R) with hs
  have hinv : Stereo.posInv (2 ^ k) s :=
    stereo_run_posInv k ops _ ⟨h0, h0⟩
  have hg0 : Stereo.goodFrames (2 ^ k) ([] : List (α × α))
      (Stereo.initial b0L b0R) := by
    intro i hi
    exfalso
    have hsz : Stereo.size (2 ^ k) (Stereo.initial b0L b0R) = 0 := by
      show mask (2 ^ k) (wsub 0 0) = 0
      rw [wsub_self, mask_eq_mod, Nat.zero_mod]
    rw [hsz] at hi
    omega
  have hg : Stereo.goodFrames (2 ^ k) ([] ++ pushedFrames ops) s :=
    goodFrames_run k hk ops _ [] ⟨h0, h0⟩ hg0
  rw [List.nil_append] at hg
  have hne : s.readPos ≠ s.writePos := by
    intro heq
    simp [Stereo.pop, heq] at h
  have hpop1 : (Stereo.pop (2 ^ k) s).1 =
      some (s.bufL s.readPos, s.bufR s.readPos) := by
    simp [Stereo.pop, hne]
  rw [hpop1] at h
  have hab : (s.bufL s.readPos, s.bufR s.readPos) = (a, b) :=
    Option.some.inj h
  have hpos : 0 < Stereo.size (2 ^ k) s := by
    rw [stereo_size_eq k hk s hinv.1 hinv.2,
      dist_closed _ _ _ h0 hinv.1 hinv.2]
    have := hinv.2
    split_ifs with hc
    · omega
    · omega
  have hfr := hg 0 hpos
  have hidx : mask (2 ^ k) (s.readPos + 0) = s.readPos := by
    rw [Nat.add_zero, mask_eq_mod]
    exact Nat.mod_eq_of_lt hinv.2
  rw [hidx, hab] at hfr
  exact hfr

/-- C7 witness: a concrete trace with a single push and a bulk push. -/
theorem stereo_pop_frame_coherent_witness :
    (Stereo.pop (2 ^ 2) (Stereo.run (2 ^ 2)
      [StOp.pushOp 1 2, StOp.popOp, StOp.bulkOp [3, 4] [5, 6]]
      (Stereo.initial (fun _ => (0 : Nat)) (fun _ => 0)))).1 = some (3, 5) ∧
    (3, 5) ∈ pushedFrames
      [StOp.pushOp (1 : Nat) 2, StOp.popOp, StOp.bulkOp [3, 4] [5, 6]] := by
  refine ⟨by decide, ?_⟩
  exact stereo_pop_frame_coherent 2 (by norm_num)
    [StOp.pushOp 1 2, StOp.popOp, StOp.bulkOp [3, 4] [5, 6]]
    (fun _ => 0) (fun _ => 0) 3 5 (by decide)

/-! ### Claim theorems: empty-result signalling and frame effects -/

/-- C8: pop on a freshly constructed buffer, and pop immediately after
clear on any state, returns the empty optional, for both buffer
variants; in the embedding absence of data is a value of the result
type, never an error. -/
theorem pop_fresh_or_cleared_none (N : Nat) (α : Type) :
    (∀ b0 : Nat → α, (Simple.pop N (Simple.initial b0)).1 = none) ∧
    (∀ s : Simple α, (Simple.pop N (Simple.clear s)).1 = none) ∧
    (∀ b0L b0R : Nat → α, (Stereo.pop N (Stereo.initial b0L b0R)).1 = none) ∧
    (∀ s : Stereo α, (Stereo.pop N (Stereo.clear s)).1 = none) := by
  refine ⟨fun b0 => ?_, fun s => ?_, fun b0L b0R => ?_, fun s => ?_⟩ <;>
    simp [Simple.pop, Stereo.pop, Simple.initial, Stereo.initial,
      Simple.clear, Stereo.clear]

/-- C8 witness at capacity 4 over Nat states. -/
theorem pop_fresh_or_cleared_none_witness :
    (Simple.pop 4 (Simple.initial (fun _ => (0 : Nat)))).1 = none ∧
    (Stereo.pop 4 (Stereo.clear (Stereo.push 4
      (Stereo.initial (fun _ => (0 : Nat)) (fun _ => 0)) 1 2))).1 = none := by
  refine ⟨(pop_fresh_or_cleared_none 4 Nat).1 (fun _ => 0), ?_⟩
  exact (pop_fresh_or_cleared_none 4 Nat).2.2.2 _

/-- C9: every push (single and bulk, both variants) leaves readPos
unchanged, and pop and popall leave writePos unchanged. -/
theorem producer_consumer_cursor_separation (N : Nat) (α : Type) :
    (∀ (s : Simple α) (x : α), (Simple.push N s x).readPos = s.readPos) ∧
    (∀ (s : Simple α) (u : List α),
      (Simple.pushBulk N s u).readPos = s.readPos) ∧
    (∀ s : Simple α, ((Simple.pop N s).2).writePos = s.writePos) ∧
    (∀ s : Simple α, ((Simple.popall N s).2).writePos = s.writePos) ∧
    (∀ (s : Stereo α) (x y : α), (Stereo.push N s x y).readPos = s.readPos) ∧
    (∀ (s : Stereo α) (uL uR : List α),
      (Stereo.pushBulk N s uL uR).readPos = s.readPos) ∧
    (∀ s : Stereo α, ((Stereo.pop N s).2).writePos = s.writePos) ∧
    (∀ s : Stereo α, ((Stereo.popall N s).2).writePos = s.writePos) := by
  refine ⟨fun s x => rfl, fun s u => rfl, fun s => ?_, fun s => rfl,
    fun s x y => rfl, fun s uL uR => rfl, fun s => ?_, fun s => rfl⟩
  · rw [Simple.pop]
    split <;> rfl
  · rw [Stereo.pop]
    split <;> rfl

/-- C9 witness at capacity 4 over Nat states. -/
theorem producer_consumer_cursor_separation_witness :
    (Simple.push 4 (Simple.initial (fun _ => (0 : Nat))) 7).readPos =
      (Simple.initial (fun _ => (0 : Nat)) : Simple Nat).readPos ∧
    ((Simple.pop 4 (Simple.push 4 (Simple.initial (fun _ => (0 : Nat))) 7)).2).writePos =
      (Simple.push 4 (Simple.initial (fun _ => (0 : Nat))) 7).writePos := by
  constructor
  · exact (producer_consumer_cursor_separation 4 Nat).1 _ 7
  · exact (producer_consumer_cursor_separation 4 Nat).2.2.1 _

/-- C10: clear resets readPos to 0 and stores 0 into writePos, and the
subscribed flag reads the same before and after, for both variants. -/
theorem clear_resets_cursors_keeps_subscribed (α : Type) :
    (∀ s : Simple α, (Simple.clear s).readPos = 0 ∧
      (Simple.clear s).writePos = 0 ∧
      (Simple.clear s).subscribed = s.subscribed) ∧
    (∀ s : Stereo α, (Stereo.clear s).readPos = 0 ∧
      (Stereo.clear s).writePos = 0 ∧
      (Stereo.clear s).subscribed = s.subscribed) :=
  ⟨fun s => ⟨rfl, rfl, rfl⟩, fun s => ⟨rfl, rfl, rfl⟩⟩

/-- C10 witness on a subscribed nonempty state. -/
theorem clear_resets_cursors_keeps_subscribed_witness :
    (Simple.clear (Simple.subscribe (Simple.push 4
      (Simple.initial (fun _ => (0 : Nat))) 7))).subscribed =
      (Simple.subscribe (Simple.push 4
        (Simple.initial (fun _ => (0 : Nat))) 7)).subscribed :=
  ((clear_resets_cursors_keeps_subscribed Nat).1 _).2.2

end SstCpputils
